import Mathlib

/-!
Verification of the SRT batch-translation tool (`main.py`).

Text is modelled as `List Char` (one entry per Unicode code point, matching
Python string indexing and `len`).  Dictionaries (`dict[str, str]`) are
modelled as association lists whose `set` overwrites the first matching key.
-/

set_option maxHeartbeats 1000000

/-- Python strings: a list of Unicode code points. -/
abbrev Str := List Char

/-- Convert a Lean string literal into the model representation. -/
def str (s : String) : Str := s.data

/-- Characters Python's `str.strip()` removes (ASCII whitespace subset). -/
def pyWs (c : Char) : Bool :=
  c = ' ' || c = '\t' || c = '\n' || c = '\r' || c = '\x0b' || c = '\x0c'

/-- Python `s.strip()`: drop leading and trailing whitespace. -/
def pyStrip (s : Str) : Str :=
  ((s.dropWhile pyWs).reverse.dropWhile pyWs).reverse

/-- Python `s.split("\n")`: split on every newline, no collapsing. -/
def splitOnNl : Str → List Str
  | [] => [[]]
  | c :: rest =>
    match splitOnNl rest with
    | [] => [[]]
    | s :: ss => if c = '\n' then [] :: s :: ss else (c :: s) :: ss

/-- Fuel-driven worker for `splitOnStr`. -/
def splitOnStrAux (sep : Str) : Nat → Str → List Str
  | _, [] => [[]]
  | 0, s => [s]
  | Nat.succ n, c :: rest =>
    if sep.isPrefixOf (c :: rest) then
      [] :: splitOnStrAux sep n (List.drop sep.length (c :: rest))
    else
      match splitOnStrAux sep n rest with
      | [] => [[]]
      | s :: ss => (c :: s) :: ss

/-- Python `s.split(sep)` for a non-empty separator: non-overlapping,
left-to-right, no collapsing of empty pieces. -/
def splitOnStr (sep s : Str) : List Str := splitOnStrAux sep s.length s

/-- One pass of `re.sub(r"\[.*?\]|\{.*?\}", "", s)`.  The regex engine scans
left to right; at an opening bracket it matches lazily up to the nearest
closing bracket on the same line (`.` does not cross `\n`), otherwise the
opening bracket is kept literally.  `mode = some close` means we are inside
a bracketed span looking for `close`. -/
def stripBracketsAux : Option Char → Str → Str
  | some _, [] => []
  | some close, c :: rest =>
    if c = close then stripBracketsAux none rest
    else stripBracketsAux (some close) rest
  | none, [] => []
  | none, c :: rest =>
    if c = '[' then
      if (rest.takeWhile (fun x => x != '\n')).contains ']' then
        stripBracketsAux (some ']') rest
      else c :: stripBracketsAux none rest
    else if c = '\x7b' then
      if (rest.takeWhile (fun x => x != '\n')).contains '\x7d' then
        stripBracketsAux (some '\x7d') rest
      else c :: stripBracketsAux none rest
    else c :: stripBracketsAux none rest

/-- `main.py` line 215: clean text of a caption unit, computed from its text
lines: `re.sub(r"\[.*?\]|\{.*?\}", "", " ".flatten(text_lines)).strip()`. -/
def cleanText (textLines : List Str) : Str :=
  pyStrip (stripBracketsAux none (List.intercalate [' '] textLines))

/-- Model of a Python `dict[str, str]`. -/
abbrev Dict := List (Str × Str)

/-- `d.get(k)`: first matching entry. -/
def dlookup : Dict → Str → Option Str
  | [], _ => none
  | (k, v) :: rest, t => if k = t then some v else dlookup rest t

/-- `d[k] = v`: overwrite the existing entry in place, else append. -/
def dset : Dict → Str → Str → Dict
  | [], k, v => [(k, v)]
  | (k', v') :: rest, k, v =>
    if k' = k then (k', v) :: rest else (k', v') :: dset rest k v

/-- The sentinel delimiter `SPLIT_TOKEN` of `process_srt_file`. -/
def SPLIT_TOKEN : Str := str "<DEEPL_SPLIT_TOKEN>"

/-- The literal failure placeholder of `process_srt_file` line 269. -/
def PLACEHOLDER : Str := str "【翻译失败或原文为空】"

/-- State of the batch-planning loop (`main.py` lines 203-233):
accumulated batches, the batch text being built, its ordered source-text
list, and the per-file translation result map `all_translations`. -/
structure PlanState where
  batches : List (Str × List Str)
  curText : Str
  curIdx : List Str
  tr : Dict
deriving DecidableEq, Repr

/-- One iteration of the planning loop of `process_srt_file`
(lines 209-230) on one indexed block. -/
def planStep (cache : Dict) (maxChars : Nat) (st : PlanState) (block : Str) :
    PlanState :=
  match splitOnNl block with
  | _index :: _timestamp :: textLines =>
    let english_text := cleanText textLines
    match dlookup cache english_text with
    | some cached_translation =>
      { st with tr := dset st.tr english_text cached_translation }
    | none =>
      let text_to_add := english_text ++ SPLIT_TOKEN
      let st' :=
        if st.curText.length + text_to_add.length > maxChars ∧ st.curText ≠ [] then
          { st with batches := st.batches ++ [(st.curText, st.curIdx)],
                    curText := [], curIdx := [] }
        else st
      { st' with curText := st'.curText ++ text_to_add,
                 curIdx := st'.curIdx ++ [english_text] }
  | _ => st

/-- The whole planning loop plus the final flush (lines 209-233). -/
def planFile (cache : Dict) (maxChars : Nat) (blocks : List Str) : PlanState :=
  let st := blocks.foldl (planStep cache maxChars) ⟨[], [], [], []⟩
  if st.curText ≠ [] then
    { st with batches := st.batches ++ [(st.curText, st.curIdx)],
              curText := [], curIdx := [] }
  else st

/-- State threaded through the batch-translation loop (lines 238-254):
result map, cache contents, and the number of `api.translate` calls. -/
structure MergeState where
  tr : Dict
  cache : Dict
  calls : Nat
deriving DecidableEq, Repr

/-- Lines 247-251: zip the batch's source texts positionally against the
delimiter-split response segments; record a pair in the result map and the
cache only when the segment exists and is non-empty after stripping. -/
def recordSegs : List Str → List Str → Dict × Dict → Dict × Dict
  | [], _, m => m
  | _ :: _, [], m => m
  | t :: ts, seg :: segs, (tr, c) =>
    if pyStrip seg ≠ [] then
      recordSegs ts segs (dset tr t (pyStrip seg), dset c t (pyStrip seg))
    else
      recordSegs ts segs (tr, c)

/-- Lines 242-254 applied to one batch: call the API once, and on a
non-empty response split it on the delimiter and record the segments. -/
def mergeBatch (api : Str → Str) (st : MergeState) (batch : Str × List Str) :
    MergeState :=
  let translated_batch_text := api batch.1
  if translated_batch_text ≠ [] then
    let translated_segments := splitOnStr SPLIT_TOKEN translated_batch_text
    let m := recordSegs batch.2 translated_segments (st.tr, st.cache)
    { tr := m.1, cache := m.2, calls := st.calls + 1 }
  else
    { st with calls := st.calls + 1 }

/-- Python truthiness fallback: the value of `o` unless it is `None` or the
empty string, in which case `d`. -/
def orFalsy (o : Option Str) (d : Str) : Str :=
  match o with
  | some s => if s = [] then d else s
  | none => d

/-- Lines 257-273: rebuild one block.  A block with fewer than two lines is
appended verbatim; otherwise emit index line, time-range line, the non-blank
original text lines, and the translated line obtained from the result map if
truthy, else the cache if truthy, else the placeholder. -/
def reassembleBlock (tr cache : Dict) (block : Str) : Str :=
  match splitOnNl block with
  | index :: timestamp :: textLines =>
    let english_text := cleanText textLines
    let translated :=
      orFalsy (dlookup tr english_text)
        (orFalsy (dlookup cache english_text) PLACEHOLDER)
    let original_lines := textLines.filter (fun l => pyStrip l ≠ [])
    List.intercalate ['\n'] (index :: timestamp :: (original_lines ++ [translated]))
  | _ => block

/-- Result of processing one file's indexed blocks. -/
structure ProcessResult where
  batches : List (Str × List Str)
  tr : Dict
  cache : Dict
  calls : Nat
  newBlocks : List Str
  output : Str
deriving DecidableEq, Repr

/-- `process_srt_file` on the indexed blocks of one file: plan the batches,
translate and merge each batch in order, reassemble every block, and join
the blocks with blank-line separators plus a trailing blank line
(lines 203-281). -/
def processBlocks (api : Str → Str) (cache0 : Dict) (maxChars : Nat)
    (blocks : List Str) : ProcessResult :=
  let ps := planFile cache0 maxChars blocks
  let ms := ps.batches.foldl (mergeBatch api) ⟨ps.tr, cache0, 0⟩
  let newBlocks := blocks.map (reassembleBlock ms.tr ms.cache)
  { batches := ps.batches, tr := ms.tr, cache := ms.cache, calls := ms.calls,
    newBlocks := newBlocks,
    output := List.intercalate ['\n', '\n'] newBlocks ++ ['\n', '\n'] }

/-- The ordered list of clean texts of the well-formed units of a file. -/
def fileCleanTexts (blocks : List Str) : List Str :=
  blocks.filterMap (fun b =>
    match splitOnNl b with
    | _ :: _ :: textLines => some (cleanText textLines)
    | _ => none)

/-- Outcome of the quota check in `main` (lines 317-330). -/
inductive QuotaDecision where
  | abort
  | warn
  | ok
deriving DecidableEq, Repr

/-- Lines 317-330: `percentage > threshold` aborts with `sys.exit(1)` before
any file is opened; `percentage > threshold - 0.15` proceeds with a warning;
otherwise proceeds with the positive message. -/
def quotaGate (percentage quota_threshold : ℚ) : QuotaDecision :=
  if percentage > quota_threshold then QuotaDecision.abort
  else if percentage > quota_threshold - 0.15 then QuotaDecision.warn
  else QuotaDecision.ok

/-- Lines 129-132 of `DeepLAPI.get_usage`: default a missing
`character_count` to 0 and a missing `character_limit` to 500000, and
return `used / limit`, or 0 when the limit is 0. -/
def getUsageFraction (character_count character_limit : Option Int) : ℚ :=
  let used := character_count.getD 0
  let limit := character_limit.getD 500000
  if limit = 0 then 0 else (used : ℚ) / (limit : ℚ)

/-- A UTF-8 continuation byte. -/
def contByte (b : Nat) : Bool := 0x80 ≤ b && b < 0xC0

/-- Strict UTF-8 decoding of a byte sequence, as Python's `utf-8` codec
performs when the cache file is opened with `encoding="utf-8"`: rejects
stray continuation bytes, overlong forms, surrogates, and truncated
sequences.  `none` models a `UnicodeDecodeError`. -/
def utf8Decode : List Nat → Option Str
  | [] => some []
  | b :: rest =>
    if b < 0x80 then (utf8Decode rest).map (fun s => Char.ofNat b :: s)
    else if b < 0xC2 then none
    else if b < 0xE0 then
      match rest with
      | b1 :: rest' =>
        if contByte b1 then
          (utf8Decode rest').map
            (fun s => Char.ofNat ((b - 0xC0) * 0x40 + (b1 - 0x80)) :: s)
        else none
      | _ => none
    else if b < 0xF0 then
      match rest with
      | b1 :: b2 :: rest' =>
        if contByte b1 && contByte b2 then
          let cp := (b - 0xE0) * 0x1000 + (b1 - 0x80) * 0x40 + (b2 - 0x80)
          if cp < 0x800 || (0xD800 ≤ cp && cp < 0xE000) then none
          else (utf8Decode rest').map (fun s => Char.ofNat cp :: s)
        else none
      | _ => none
    else if b < 0xF5 then
      match rest with
      | b1 :: b2 :: b3 :: rest' =>
        if contByte b1 && contByte b2 && contByte b3 then
          let cp := (b - 0xF0) * 0x40000 + (b1 - 0x80) * 0x1000 +
                    (b2 - 0x80) * 0x40 + (b3 - 0x80)
          if cp < 0x10000 || 0x10FFFF < cp then none
          else (utf8Decode rest').map (fun s => Char.ofNat cp :: s)
        else none
      | _ => none
    else none

/-- A JSON value as produced by `json.load`. -/
inductive Json where
  | null
  | bool (b : Bool)
  | num (lexeme : Str)
  | str (s : Str)
  | arr (elems : List Json)
  | obj (fields : List (Str × Json))
deriving Repr

/-- The whitespace characters skipped by `json.load`. -/
def jsonWs (c : Char) : Bool := c = ' ' || c = '\t' || c = '\n' || c = '\r'

/-- Hexadecimal digit value, 16 for a non-hex character. -/
def hexVal (c : Char) : Nat :=
  if '0' ≤ c && c ≤ '9' then c.toNat - '0'.toNat
  else if 'a' ≤ c && c ≤ 'f' then c.toNat - 'a'.toNat + 10
  else if 'A' ≤ c && c ≤ 'F' then c.toNat - 'A'.toNat + 10
  else 16

/-- Parse the body of a JSON string (the opening quote already consumed),
returning the contents and the remainder after the closing quote. -/
def parseJStr : Str → Option (Str × Str)
  | [] => none
  | c :: rest =>
    if c = '"' then some ([], rest)
    else if c = '\\' then
      match rest with
      | [] => none
      | e :: rest' =>
        if e = '"' then (parseJStr rest').map (fun p => ('"' :: p.1, p.2))
        else if e = '\\' then (parseJStr rest').map (fun p => ('\\' :: p.1, p.2))
        else if e = '/' then (parseJStr rest').map (fun p => ('/' :: p.1, p.2))
        else if e = 'b' then (parseJStr rest').map (fun p => ('\x08' :: p.1, p.2))
        else if e = 'f' then (parseJStr rest').map (fun p => ('\x0c' :: p.1, p.2))
        else if e = 'n' then (parseJStr rest').map (fun p => ('\n' :: p.1, p.2))
        else if e = 'r' then (parseJStr rest').map (fun p => ('\r' :: p.1, p.2))
        else if e = 't' then (parseJStr rest').map (fun p => ('\t' :: p.1, p.2))
        else if e = 'u' then
          match rest' with
          | h1 :: h2 :: h3 :: h4 :: r2 =>
            if hexVal h1 < 16 && hexVal h2 < 16 && hexVal h3 < 16 && hexVal h4 < 16 then
              (parseJStr r2).map (fun p =>
                (Char.ofNat (((hexVal h1 * 16 + hexVal h2) * 16 + hexVal h3) * 16 +
                  hexVal h4) :: p.1, p.2))
            else none
          | _ => none
        else none
    else if c.toNat < 0x20 then none
    else (parseJStr rest).map (fun p => (c :: p.1, p.2))

/-- Parse a JSON number token (`-?(0|[1-9][0-9]*)(\.[0-9]+)?([eE][+-]?[0-9]+)?`),
returning its lexeme and the remainder. -/
def parseJNum (s : Str) : Option (Str × Str) :=
  let (sign, s1) : Str × Str :=
    match s with
    | '-' :: r => (['-'], r)
    | _ => ([], s)
  match s1 with
  | [] => none
  | c :: r =>
    if c = '0' || (c.isDigit && c ≠ '0') then
      let (intDigits, r1) : Str × Str :=
        if c = '0' then ([c], r)
        else (c :: r.takeWhile Char.isDigit, r.dropWhile Char.isDigit)
      let (fracPart, r2) : Str × Str :=
        match r1 with
        | '.' :: d :: r' =>
          if d.isDigit then
            ('.' :: d :: r'.takeWhile Char.isDigit, r'.dropWhile Char.isDigit)
          else ([], r1)
        | _ => ([], r1)
      let (expPart, r3) : Str × Str :=
        match r2 with
        | e :: rest =>
          if e = 'e' || e = 'E' then
            match rest with
            | sc :: d :: r' =>
              if (sc = '+' || sc = '-') && d.isDigit then
                (e :: sc :: d :: r'.takeWhile Char.isDigit, r'.dropWhile Char.isDigit)
              else if sc.isDigit then
                (e :: sc :: rest.tail.takeWhile Char.isDigit,
                 rest.tail.dropWhile Char.isDigit)
              else ([], r2)
            | [sc] =>
              if sc.isDigit then ([e, sc], []) else ([], r2)
            | [] => ([], r2)
          else ([], r2)
        | [] => ([], r2)
      some (sign ++ intDigits ++ fracPart ++ expPart, r3)
    else none

mutual

/-- Parse one JSON value after optional leading whitespace, as
`json.load` does (including Python's `NaN` / `Infinity` constants).
The fuel argument only bounds nesting and is chosen large enough for the
whole input. -/
def parseJValue : Nat → Str → Option (Json × Str)
  | 0, _ => none
  | Nat.succ fuel, s0 =>
    match s0.dropWhile jsonWs with
    | [] => none
    | c :: rest =>
      if c = '\x7b' then
        match rest.dropWhile jsonWs with
        | '\x7d' :: r2 => some (Json.obj [], r2)
        | r => (parseJMembers fuel r).map (fun p => (Json.obj p.1, p.2))
      else if c = '[' then
        match rest.dropWhile jsonWs with
        | ']' :: r2 => some (Json.arr [], r2)
        | r => (parseJElems fuel r).map (fun p => (Json.arr p.1, p.2))
      else if c = '"' then
        (parseJStr rest).map (fun p => (Json.str p.1, p.2))
      else if c = 't' then
        if (str "rue").isPrefixOf rest then some (Json.bool true, rest.drop 3)
        else none
      else if c = 'f' then
        if (str "alse").isPrefixOf rest then some (Json.bool false, rest.drop 4)
        else none
      else if c = 'n' then
        if (str "ull").isPrefixOf rest then some (Json.null, rest.drop 3)
        else none
      else if c = 'N' then
        if (str "aN").isPrefixOf rest then some (Json.num (str "NaN"), rest.drop 2)
        else none
      else if c = 'I' then
        if (str "nfinity").isPrefixOf rest then
          some (Json.num (str "Infinity"), rest.drop 7)
        else none
      else if c = '-' && (str "Infinity").isPrefixOf rest then
        some (Json.num (str "-Infinity"), rest.drop 8)
      else if c = '-' || c.isDigit then
        (parseJNum (c :: rest)).map (fun p => (Json.num p.1, p.2))
      else none

/-- Parse the members of a JSON object starting at the first key,
up to and including the closing brace. -/
def parseJMembers : Nat → Str → Option (List (Str × Json) × Str)
  | 0, _ => none
  | Nat.succ fuel, s0 =>
    match s0.dropWhile jsonWs with
    | '"' :: rest =>
      match parseJStr rest with
      | some (key, r1) =>
        match r1.dropWhile jsonWs with
        | ':' :: r3 =>
          match parseJValue fuel r3 with
          | some (v, r4) =>
            match r4.dropWhile jsonWs with
            | ',' :: r6 =>
              (parseJMembers fuel r6).map (fun p => ((key, v) :: p.1, p.2))
            | '\x7d' :: r6 => some ([(key, v)], r6)
            | _ => none
          | none => none
        | _ => none
      | none => none
    | _ => none

/-- Parse the elements of a JSON array starting at the first element,
up to and including the closing square bracket. -/
def parseJElems : Nat → Str → Option (List Json × Str)
  | 0, _ => none
  | Nat.succ fuel, s0 =>
    match parseJValue fuel s0 with
    | some (v, r1) =>
      match r1.dropWhile jsonWs with
      | ',' :: r2 => (parseJElems fuel r2).map (fun p => (v :: p.1, p.2))
      | ']' :: r2 => some ([v], r2)
      | _ => none
    | none => none

end

/-- `json.load` on the full decoded text: one value, then only trailing
whitespace (anything else is a `JSONDecodeError`, modelled as `none`). -/
def jsonLoad (s : Str) : Option Json :=
  match parseJValue (2 * s.length + 2) s with
  | some (v, rest) => if rest.dropWhile jsonWs = [] then some v else none
  | none => none

/-- `TranslationCache._load_cache` plus the constructor (lines 161-171),
down at the byte level of the cache file.  `none` as input: the file does
not exist.  `none` as output: the constructor raises.  The file is opened
with `encoding="utf-8"`, so `json.load` first decodes the bytes (an invalid
byte raises `UnicodeDecodeError`, which the `except json.JSONDecodeError`
clause does not catch); a decoding success followed by a JSON parse failure
is caught and yields the empty mapping. -/
def loadCacheResult : Option (List Nat) → Option Json
  | none => some (Json.obj [])
  | some bytes =>
    match utf8Decode bytes with
    | none => none
    | some s =>
      match jsonLoad s with
      | none => some (Json.obj [])
      | some v => some v

/-! ### Helper lemmas -/

theorem dlookup_dset_self (d : Dict) (k v : Str) :
    dlookup (dset d k v) k = some v := by
  induction d with
  | nil => simp [dset, dlookup]
  | cons p rest ih =>
    obtain ⟨k', v'⟩ := p
    by_cases h : k' = k
    · subst h; simp [dset, dlookup]
    · simp [dset, dlookup, h, ih]

theorem dlookup_dset_ne (d : Dict) (k v t : Str) (h : k ≠ t) :
    dlookup (dset d k v) t = dlookup d t := by
  induction d with
  | nil => simp [dset, dlookup, h]
  | cons p rest ih =>
    obtain ⟨k', v'⟩ := p
    by_cases hk : k' = k
    · subst hk
      simp [dset, dlookup, h]
    · simp [dset, dlookup, hk, ih]

/-- The batch text determined by an ordered source-text list: each text
suffixed by the sentinel delimiter. -/
def flattenTok (l : List Str) : Str :=
  (l.map (fun t => t ++ SPLIT_TOKEN)).flatten

theorem flattenTok_nil : flattenTok [] = [] := rfl

theorem flattenTok_append (a b : List Str) :
    flattenTok (a ++ b) = flattenTok a ++ flattenTok b := by
  simp [flattenTok]

theorem flattenTok_singleton (t : Str) : flattenTok [t] = t ++ SPLIT_TOKEN := by
  simp [flattenTok]

theorem flattenTok_eq_nil_iff (l : List Str) : flattenTok l = [] ↔ l = [] := by
  cases l with
  | nil => simp [flattenTok]
  | cons t rest =>
    simp only [flattenTok, List.map_cons, List.flatten_cons, List.append_assoc]
    constructor
    · intro h
      have := List.append_eq_nil.mp h
      have h2 := List.append_eq_nil.mp this.2
      exact absurd h2.1 (by decide : SPLIT_TOKEN ≠ [])
    · intro h; exact absurd h (by simp)

/-- The ordered sequence of clean texts of well-formed units that miss the
cache, one occurrence per unit. -/
def uncachedTexts (cache : Dict) (blocks : List Str) : List Str :=
  blocks.filterMap (fun b =>
    match splitOnNl b with
    | _ :: _ :: textLines =>
      match dlookup cache (cleanText textLines) with
      | none => some (cleanText textLines)
      | some _ => none
    | _ => none)

theorem mem_uncachedTexts (cache : Dict) (blocks : List Str) (t : Str)
    (h : t ∈ uncachedTexts cache blocks) : dlookup cache t = none := by
  rw [uncachedTexts, List.mem_filterMap] at h
  obtain ⟨b, _, hb⟩ := h
  revert hb
  cases splitOnNl b with
  | nil => simp
  | cons x xs =>
    cases xs with
    | nil => simp
    | cons y ys =>
      simp only []
      cases hc : dlookup cache (cleanText ys) with
      | none => intro hb; cases hb; exact hc
      | some v => simp

/-- The source-text lists accumulated so far (closed batches then the batch
being built), flattened in order. -/
def planTexts (st : PlanState) : List Str :=
  (st.batches.map Prod.snd).flatten ++ st.curIdx

/-- Invariant: the batch text under construction is the delimiter-joined
form of its source-text list, and likewise for every closed batch. -/
def planTextInv (st : PlanState) : Prop :=
  st.curText = flattenTok st.curIdx ∧
  ∀ b ∈ st.batches, b.1 = flattenTok b.2

theorem planStep_textInv (cache : Dict) (maxChars : Nat) (st : PlanState)
    (block : Str) (h : planTextInv st) :
    planTextInv (planStep cache maxChars st block) := by
  obtain ⟨hcur, hbatches⟩ := h
  unfold planStep
  cases hs : splitOnNl block with
  | nil => exact ⟨hcur, hbatches⟩
  | cons x xs =>
    cases xs with
    | nil => exact ⟨hcur, hbatches⟩
    | cons y textLines =>
      simp only []
      cases hc : dlookup cache (cleanText textLines) with
      | some v => exact ⟨hcur, hbatches⟩
      | none =>
        simp only []
        split
        · refine ⟨?_, ?_⟩
          · simp [flattenTok_singleton]
        
          · intro b hb
            simp only [List.mem_append, List.mem_singleton] at hb
            rcases hb with hb | hb
            · exact hbatches b hb
            · subst hb; exact hcur
        · refine ⟨?_, hbatches⟩
          simp [flattenTok_append, flattenTok_singleton, hcur]

theorem planFold_textInv (cache : Dict) (maxChars : Nat) (blocks : List Str)
    (st : PlanState) (h : planTextInv st) :
    planTextInv (blocks.foldl (planStep cache maxChars) st) := by
  induction blocks generalizing st with
  | nil => exact h
  | cons b bs ih => exact ih _ (planStep_textInv cache maxChars st b h)

theorem planFile_textInv (cache : Dict) (maxChars : Nat) (blocks : List Str) :
    planTextInv (planFile cache maxChars blocks) := by
  have h := planFold_textInv cache maxChars blocks ⟨[], [], [], []⟩
    ⟨rfl, by simp⟩
  simp only [planFile]
  split
  · refine ⟨by simp [flattenTok_nil], ?_⟩
    intro b hb
    simp only [List.mem_append, List.mem_singleton] at hb
    rcases hb with hb | hb
    · exact h.2 b hb
    · subst hb; exact h.1
  · exact h

theorem planStep_planTexts (cache : Dict) (maxChars : Nat) (st : PlanState)
    (block : Str) :
    planTexts (planStep cache maxChars st block) =
      planTexts st ++
        (match splitOnNl block with
         | _ :: _ :: textLines =>
           match dlookup cache (cleanText textLines) with
           | none => [cleanText textLines]
           | some _ => []
         | _ => []) := by
  unfold planStep
  cases hs : splitOnNl block with
  | nil => simp
  | cons x xs =>
    cases xs with
    | nil => simp
    | cons y textLines =>
      simp only []
      cases hc : dlookup cache (cleanText textLines) with
      | some v => simp [planTexts]
      | none =>
        simp only []
        split
        · simp [planTexts]
        · simp [planTexts]

theorem planFold_planTexts (cache : Dict) (maxChars : Nat) (blocks : List Str)
    (st : PlanState) :
    planTexts (blocks.foldl (planStep cache maxChars) st) =
      planTexts st ++ uncachedTexts cache blocks := by
  induction blocks generalizing st with
  | nil => simp [uncachedTexts]
  | cons b bs ih =>
    rw [List.foldl_cons, ih, planStep_planTexts]
    have : uncachedTexts cache (b :: bs) =
        (match splitOnNl b with
         | _ :: _ :: textLines =>
           match dlookup cache (cleanText textLines) with
           | none => [cleanText textLines]
           | some _ => []
         | _ => []) ++ uncachedTexts cache bs := by
      unfold uncachedTexts
      rw [List.filterMap_cons]
      cases hs : splitOnNl b with
      | nil => simp
      | cons x xs =>
        cases xs with
        | nil => simp
        | cons y textLines =>
          simp only []
          cases hc : dlookup cache (cleanText textLines) with
          | some v => simp
          | none => simp
    rw [this, List.append_assoc]

/-- The flattened source-text lists of the planner's batches are exactly the
uncached clean texts of the file's well-formed units, in unit order, one
occurrence per unit. -/
theorem planFile_texts (cache : Dict) (maxChars : Nat) (blocks : List Str) :
    ((planFile cache maxChars blocks).batches.map Prod.snd).flatten =
      uncachedTexts cache blocks := by
  have hfold := planFold_planTexts cache maxChars blocks ⟨[], [], [], []⟩
  have hinv := planFold_textInv cache maxChars blocks ⟨[], [], [], []⟩ ⟨rfl, by simp⟩
  simp only [planTexts] at hfold
  simp only [List.map_nil, List.flatten_nil, List.nil_append] at hfold
  simp only [planFile]
  split
  · rename_i hne
    simp only [List.map_append, List.flatten_append, List.map_cons,
      List.flatten_cons, List.map_nil, List.flatten_nil, List.append_nil]
    exact hfold
  · rename_i he
    push_neg at he
    have hidx : (List.foldl (planStep cache maxChars) ⟨[], [], [], []⟩ blocks).curIdx = [] := by
      have := hinv.1
      rw [he] at this
      exact (flattenTok_eq_nil_iff _).mp this.symm
    rw [hidx, List.append_nil] at hfold
    exact hfold

/-- Budget invariant: the batch being built and every closed batch are
within budget unless they consist of a single text. -/
def planBudgetInv (maxChars : Nat) (st : PlanState) : Prop :=
  (st.curText.length ≤ maxChars ∨ ∃ t, st.curIdx = [t]) ∧
  ∀ b ∈ st.batches, b.1.length ≤ maxChars ∨ ∃ t, b.2 = [t]

theorem planStep_budgetInv (cache : Dict) (maxChars : Nat) (st : PlanState)
    (block : Str) (htext : planTextInv st) (h : planBudgetInv maxChars st) :
    planBudgetInv maxChars (planStep cache maxChars st block) := by
  obtain ⟨hcur, hbatches⟩ := h
  unfold planStep
  cases hs : splitOnNl block with
  | nil => exact ⟨hcur, hbatches⟩
  | cons x xs =>
    cases xs with
    | nil => exact ⟨hcur, hbatches⟩
    | cons y textLines =>
      simp only []
      cases hc : dlookup cache (cleanText textLines) with
      | some v => exact ⟨hcur, hbatches⟩
      | none =>
        simp only []
        split
        · refine ⟨Or.inr ⟨cleanText textLines, by simp⟩, ?_⟩
          intro b hb
          simp only [List.mem_append, List.mem_singleton] at hb
          rcases hb with hb | hb
          · exact hbatches b hb
          · subst hb; exact hcur
        · rename_i hcond
          by_cases hemp : st.curText = []
          · have hidx : st.curIdx = [] :=
              (flattenTok_eq_nil_iff _).mp (hemp ▸ htext.1).symm
            exact ⟨Or.inr ⟨cleanText textLines, by simp [hidx]⟩, hbatches⟩
          · have hfit : st.curText.length +
                (cleanText textLines ++ SPLIT_TOKEN).length ≤ maxChars := by
              by_contra hgt
              push_neg at hgt
              exact hcond ⟨hgt, hemp⟩
            refine ⟨Or.inl ?_, hbatches⟩
            simp only [List.length_append] at hfit ⊢
            omega

theorem planFile_budget (cache : Dict) (maxChars : Nat) (blocks : List Str)
    (batch : Str × List Str)
    (hb : batch ∈ (planFile cache maxChars blocks).batches) :
    batch.1.length ≤ maxChars ∨
      ∃ t, batch.2 = [t] ∧ batch.1 = t ++ SPLIT_TOKEN ∧
        maxChars < batch.1.length := by
  have hjoint :
      planTextInv (blocks.foldl (planStep cache maxChars) ⟨[], [], [], []⟩) ∧
      planBudgetInv maxChars
        (blocks.foldl (planStep cache maxChars) ⟨[], [], [], []⟩) := by
    have : ∀ (bs : List Str) (st : PlanState), planTextInv st →
        planBudgetInv maxChars st →
        planTextInv (bs.foldl (planStep cache maxChars) st) ∧
        planBudgetInv maxChars (bs.foldl (planStep cache maxChars) st) := by
      intro bs
      induction bs with
      | nil => intro st h1 h2; exact ⟨h1, h2⟩
      | cons b bs ih =>
        intro st h1 h2
        exact ih _ (planStep_textInv cache maxChars st b h1)
          (planStep_budgetInv cache maxChars st b h1 h2)
    exact this blocks ⟨[], [], [], []⟩ ⟨rfl, by simp⟩ ⟨Or.inl (by simp), by simp⟩
  obtain ⟨htext, hbudget⟩ := hjoint
  have hmem : batch.1 = flattenTok batch.2 ∧
      (batch.1.length ≤ maxChars ∨ ∃ t, batch.2 = [t]) := by
    revert hb
    simp only [planFile]
    split
    · intro hb
      simp only [List.mem_append, List.mem_singleton] at hb
      rcases hb with hb | hb
      · exact ⟨htext.2 batch hb, hbudget.2 batch hb⟩
      · subst hb; exact ⟨htext.1, hbudget.1⟩
    · intro hb
      exact ⟨htext.2 batch hb, hbudget.2 batch hb⟩
  obtain ⟨heq, hok⟩ := hmem
  by_cases hlen : batch.1.length ≤ maxChars
  · exact Or.inl hlen
  · rcases hok with hok | ⟨t, ht⟩
    · exact Or.inl hok
    · push_neg at hlen
      refine Or.inr ⟨t, ht, ?_, hlen⟩
      rw [heq, ht, flattenTok_singleton]

theorem planStep_tr (cache : Dict) (maxChars : Nat) (st : PlanState)
    (block : Str) :
    (planStep cache maxChars st block).tr =
      match splitOnNl block with
      | _ :: _ :: textLines =>
        match dlookup cache (cleanText textLines) with
        | some v => dset st.tr (cleanText textLines) v
        | none => st.tr
      | _ => st.tr := by
  unfold planStep
  cases hs : splitOnNl block with
  | nil => simp
  | cons x xs =>
    cases xs with
    | nil => simp
    | cons y textLines =>
      simp only []
      cases hc : dlookup cache (cleanText textLines) with
      | some v => simp
      | none =>
        simp only []
        split <;> simp

theorem fileCleanTexts_cons (b : Str) (bs : List Str) :
    fileCleanTexts (b :: bs) =
      (match splitOnNl b with
       | _ :: _ :: textLines => [cleanText textLines]
       | _ => []) ++ fileCleanTexts bs := by
  unfold fileCleanTexts
  rw [List.filterMap_cons]
  cases hs : splitOnNl b with
  | nil => simp
  | cons x xs =>
    cases xs with
    | nil => simp
    | cons y textLines => simp

/-- Every entry of the planner's result map comes from the cache. -/
theorem planFold_tr_sub (cache : Dict) (maxChars : Nat) (blocks : List Str)
    (st : PlanState)
    (h : ∀ t w, dlookup st.tr t = some w → dlookup cache t = some w) :
    ∀ t w,
      dlookup (blocks.foldl (planStep cache maxChars) st).tr t = some w →
      dlookup cache t = some w := by
  induction blocks generalizing st with
  | nil => exact h
  | cons b bs ih =>
    rw [List.foldl_cons]
    refine ih _ ?_
    intro t w hw
    rw [planStep_tr] at hw
    revert hw
    cases hs : splitOnNl b with
    | nil => exact h t w
    | cons x xs =>
      cases xs with
      | nil => exact h t w
      | cons y textLines =>
        simp only []
        cases hc : dlookup cache (cleanText textLines) with
        | some v =>
          intro hw
          by_cases he : cleanText textLines = t
          · subst he
            rw [dlookup_dset_self] at hw
            cases hw
            exact hc
          · rw [dlookup_dset_ne _ _ _ _ he] at hw
            exact h t w hw
        | none => exact h t w

/-- A clean text of the file that hits the cache ends up in the planner's
result map with its cached value (and entries already correct stay). -/
theorem planFold_tr_hit (cache : Dict) (maxChars : Nat) (blocks : List Str)
    (st : PlanState) (t : Str) (w : Str)
    (hcache : dlookup cache t = some w)
    (h : t ∈ fileCleanTexts blocks ∨ dlookup st.tr t = some w) :
    dlookup (blocks.foldl (planStep cache maxChars) st).tr t = some w := by
  induction blocks generalizing st with
  | nil =>
    rcases h with h | h
    · simp [fileCleanTexts] at h
    · exact h
  | cons b bs ih =>
    rw [List.foldl_cons]
    refine ih _ ?_
    rw [fileCleanTexts_cons] at h
    rw [planStep_tr]
    cases hs : splitOnNl b with
    | nil =>
      rcases h with h | h
      · rw [hs] at h; simp at h; exact Or.inl h
      · exact Or.inr h
    | cons x xs =>
      cases xs with
      | nil =>
        rcases h with h | h
        · rw [hs] at h; simp at h; exact Or.inl h
        · exact Or.inr h
      | cons y textLines =>
        rw [hs] at h
        simp only []
        by_cases he : cleanText textLines = t
        · subst he
          rw [hcache]
          exact Or.inr (dlookup_dset_self _ _ _)
        · cases hc : dlookup cache (cleanText textLines) with
          | some v =>
            rcases h with h | h
            · simp only [List.mem_append, List.mem_singleton] at h
              rcases h with h | h
              · exact absurd h.symm he
              · exact Or.inl h
            · exact Or.inr ((dlookup_dset_ne _ _ _ _ he).symm ▸ h)
          | none =>
            rcases h with h | h
            · simp only [List.mem_append, List.mem_singleton] at h
              rcases h with h | h
              · exact absurd h.symm he
              · exact Or.inl h
            · exact Or.inr h

/-- When every clean text of the file is a cache hit, the planning loop
closes no batch and accumulates no batch text. -/
theorem planFold_warm (cache : Dict) (maxChars : Nat) (blocks : List Str)
    (st : PlanState)
    (hwarm : ∀ t ∈ fileCleanTexts blocks, dlookup cache t ≠ none)
    (hcur : st.curText = []) :
    (blocks.foldl (planStep cache maxChars) st).batches = st.batches ∧
    (blocks.foldl (planStep cache maxChars) st).curText = [] := by
  induction blocks generalizing st with
  | nil => exact ⟨rfl, hcur⟩
  | cons b bs ih =>
    rw [List.foldl_cons]
    have hwarm' : ∀ t ∈ fileCleanTexts bs, dlookup cache t ≠ none := by
      intro t ht
      refine hwarm t ?_
      rw [fileCleanTexts_cons, List.mem_append]
      exact Or.inr ht
    have hstep : (planStep cache maxChars st b).batches = st.batches ∧
        (planStep cache maxChars st b).curText = [] := by
      unfold planStep
      cases hs : splitOnNl b with
      | nil => exact ⟨rfl, hcur⟩
      | cons x xs =>
        cases xs with
        | nil => exact ⟨rfl, hcur⟩
        | cons y textLines =>
          simp only []
          cases hc : dlookup cache (cleanText textLines) with
          | some v => exact ⟨rfl, hcur⟩
          | none =>
            exfalso
            refine hwarm (cleanText textLines) ?_ hc
            rw [fileCleanTexts_cons, hs]
            simp
    obtain ⟨h1, h2⟩ := ih (planStep cache maxChars st b) hwarm' hstep.2
    exact ⟨h1.trans hstep.1, h2⟩

/-- When every clean text of the file is a cache hit, the planner produces
no batches at all. -/
theorem planFile_warm (cache : Dict) (maxChars : Nat) (blocks : List Str)
    (hwarm : ∀ t ∈ fileCleanTexts blocks, dlookup cache t ≠ none) :
    (planFile cache maxChars blocks).batches = [] := by
  obtain ⟨h1, h2⟩ := planFold_warm cache maxChars blocks ⟨[], [], [], []⟩ hwarm rfl
  simp only [planFile]
  split
  · rename_i hne
    exact absurd h2 hne
  · exact h1

theorem recordSegs_notmem (ts segs : List Str) (m : Dict × Dict) (t : Str)
    (h : t ∉ ts) :
    dlookup (recordSegs ts segs m).1 t = dlookup m.1 t ∧
    dlookup (recordSegs ts segs m).2 t = dlookup m.2 t := by
  induction ts generalizing segs m with
  | nil => simp [recordSegs]
  | cons t' ts' ih =>
    have hne : t' ≠ t := fun he => h (he ▸ List.mem_cons_self t' ts')
    have hnotmem : t ∉ ts' := fun hm => h (List.mem_cons_of_mem t' hm)
    cases segs with
    | nil => simp [recordSegs]
    | cons s ss =>
      obtain ⟨tr, c⟩ := m
      by_cases hstrip : pyStrip s ≠ []
      · simp only [recordSegs]
        rw [if_pos hstrip]
        have := ih ss (dset tr t' (pyStrip s), dset c t' (pyStrip s)) hnotmem
        refine ⟨this.1.trans ?_, this.2.trans ?_⟩
        · exact dlookup_dset_ne _ _ _ _ hne
        · exact dlookup_dset_ne _ _ _ _ hne
      · simp only [recordSegs]
        rw [if_neg hstrip]
        exact ih ss (tr, c) hnotmem

theorem recordSegs_eq_at (ts segs : List Str) (tr c : Dict) (t : Str)
    (h : dlookup tr t = dlookup c t) :
    dlookup (recordSegs ts segs (tr, c)).1 t =
    dlookup (recordSegs ts segs (tr, c)).2 t := by
  induction ts generalizing segs tr c with
  | nil => simpa [recordSegs] using h
  | cons t' ts' ih =>
    cases segs with
    | nil => simpa [recordSegs] using h
    | cons s ss =>
      by_cases hstrip : pyStrip s ≠ []
      · simp only [recordSegs]
        rw [if_pos hstrip]
        refine ih ss _ _ ?_
        by_cases he : t' = t
        · subst he
          rw [dlookup_dset_self, dlookup_dset_self]
        · rw [dlookup_dset_ne _ _ _ _ he, dlookup_dset_ne _ _ _ _ he]
          exact h
      · simp only [recordSegs]
        rw [if_neg hstrip]
        exact ih ss _ _ h

theorem mergeBatch_notmem (api : Str → Str) (st : MergeState)
    (batch : Str × List Str) (t : Str) (h : t ∉ batch.2) :
    dlookup (mergeBatch api st batch).tr t = dlookup st.tr t ∧
    dlookup (mergeBatch api st batch).cache t = dlookup st.cache t := by
  simp only [mergeBatch]
  split
  · exact recordSegs_notmem batch.2 _ (st.tr, st.cache) t h
  · exact ⟨rfl, rfl⟩

theorem mergeBatch_eq_at (api : Str → Str) (st : MergeState)
    (batch : Str × List Str) (t : Str)
    (h : dlookup st.tr t = dlookup st.cache t) :
    dlookup (mergeBatch api st batch).tr t =
    dlookup (mergeBatch api st batch).cache t := by
  simp only [mergeBatch]
  split
  · exact recordSegs_eq_at batch.2 _ st.tr st.cache t h
  · exact h

theorem mergeFold_notmem (api : Str → Str) (batches : List (Str × List Str))
    (ms : MergeState) (t : Str) (h : ∀ b ∈ batches, t ∉ b.2) :
    dlookup (batches.foldl (mergeBatch api) ms).tr t = dlookup ms.tr t ∧
    dlookup (batches.foldl (mergeBatch api) ms).cache t =
      dlookup ms.cache t := by
  induction batches generalizing ms with
  | nil => exact ⟨rfl, rfl⟩
  | cons b bs ih =>
    rw [List.foldl_cons]
    have hstep := mergeBatch_notmem api ms b t (h b (List.mem_cons_self b bs))
    have hrest := ih (mergeBatch api ms b)
      (fun b' hb' => h b' (List.mem_cons_of_mem b hb'))
    exact ⟨hrest.1.trans hstep.1, hrest.2.trans hstep.2⟩

theorem mergeFold_eq_at (api : Str → Str) (batches : List (Str × List Str))
    (ms : MergeState) (t : Str)
    (h : dlookup ms.tr t = dlookup ms.cache t) :
    dlookup (batches.foldl (mergeBatch api) ms).tr t =
    dlookup (batches.foldl (mergeBatch api) ms).cache t := by
  induction batches generalizing ms with
  | nil => exact h
  | cons b bs ih =>
    rw [List.foldl_cons]
    exact ih (mergeBatch api ms b) (mergeBatch_eq_at api ms b t h)

theorem planFile_tr (cache : Dict) (maxChars : Nat) (blocks : List Str) :
    (planFile cache maxChars blocks).tr =
      (blocks.foldl (planStep cache maxChars) ⟨[], [], [], []⟩).tr := by
  simp only [planFile]
  split <;> rfl

theorem cleanText_mem_fileCleanTexts (blocks : List Str) (b : Str)
    (hb : b ∈ blocks) (x y : Str) (tl : List Str)
    (hs : splitOnNl b = x :: y :: tl) :
    cleanText tl ∈ fileCleanTexts blocks := by
  unfold fileCleanTexts
  rw [List.mem_filterMap]
  exact ⟨b, hb, by rw [hs]⟩

theorem batch_texts_uncached (cache : Dict) (maxChars : Nat)
    (blocks : List Str) (b : Str × List Str)
    (hb : b ∈ (planFile cache maxChars blocks).batches) (t : Str)
    (ht : t ∈ b.2) : dlookup cache t = none := by
  refine mem_uncachedTexts cache blocks t ?_
  rw [← planFile_texts cache maxChars blocks]
  rw [List.mem_flatten]
  exact ⟨b.2, List.mem_map_of_mem Prod.snd hb, ht⟩

/-- After a full run, every clean text of the file that the final cache
maps to `v` is also mapped to `v` by the final result map. -/
theorem process_tr_cache_coherent (api1 : Str → Str) (cache0 : Dict)
    (maxChars : Nat) (blocks : List Str) (t : Str)
    (htmem : t ∈ fileCleanTexts blocks) (v : Str)
    (hv : dlookup (processBlocks api1 cache0 maxChars blocks).cache t = some v) :
    dlookup (processBlocks api1 cache0 maxChars blocks).tr t = some v := by
  have hr1tr : (processBlocks api1 cache0 maxChars blocks).tr =
      ((planFile cache0 maxChars blocks).batches.foldl (mergeBatch api1)
        ⟨(planFile cache0 maxChars blocks).tr, cache0, 0⟩).tr := rfl
  have hr1cache : (processBlocks api1 cache0 maxChars blocks).cache =
      ((planFile cache0 maxChars blocks).batches.foldl (mergeBatch api1)
        ⟨(planFile cache0 maxChars blocks).tr, cache0, 0⟩).cache := rfl
  rw [hr1cache] at hv
  rw [hr1tr]
  cases hc0 : dlookup cache0 t with
  | some w =>
    have hnot : ∀ b ∈ (planFile cache0 maxChars blocks).batches, t ∉ b.2 := by
      intro b hb hmem
      rw [batch_texts_uncached cache0 maxChars blocks b hb t hmem] at hc0
      cases hc0
    have hpres := mergeFold_notmem api1 (planFile cache0 maxChars blocks).batches
      ⟨(planFile cache0 maxChars blocks).tr, cache0, 0⟩ t hnot
    rw [hpres.2] at hv
    simp only at hv
    rw [hc0] at hv
    injection hv with hwv
    subst hwv
    rw [hpres.1]
    simp only
    rw [planFile_tr]
    exact planFold_tr_hit cache0 maxChars blocks ⟨[], [], [], []⟩ t w hc0
      (Or.inl htmem)
  | none =>
    have hinit : dlookup (planFile cache0 maxChars blocks).tr t =
        dlookup cache0 t := by
      cases htr : dlookup (planFile cache0 maxChars blocks).tr t with
      | none => rw [hc0]
      | some w =>
        exfalso
        have := planFold_tr_sub cache0 maxChars blocks ⟨[], [], [], []⟩
          (by intro u w' hw'; cases hw') t w
          (by rw [← planFile_tr]; exact htr)
        rw [this] at hc0
        cases hc0
    have heq := mergeFold_eq_at api1 (planFile cache0 maxChars blocks).batches
      ⟨(planFile cache0 maxChars blocks).tr, cache0, 0⟩ t
      (by simp only; rw [hinit])
    rw [heq]
    exact hv

/-- Shape of a run that starts from a cache covering every clean text of
the file: no batches, no API calls, unchanged cache, and reassembly
against the planner's hit map. -/
theorem process_warm_shape (api2 : Str → Str) (c1 : Dict) (maxChars : Nat)
    (blocks : List Str)
    (hwarm : ∀ t ∈ fileCleanTexts blocks, dlookup c1 t ≠ none) :
    processBlocks api2 c1 maxChars blocks =
      { batches := [], tr := (planFile c1 maxChars blocks).tr, cache := c1,
        calls := 0,
        newBlocks :=
          blocks.map (reassembleBlock (planFile c1 maxChars blocks).tr c1),
        output :=
          List.intercalate ['\n', '\n']
            (blocks.map (reassembleBlock (planFile c1 maxChars blocks).tr c1)) ++
            ['\n', '\n'] } := by
  have hb : (planFile c1 maxChars blocks).batches = [] :=
    planFile_warm c1 maxChars blocks hwarm
  simp only [processBlocks, hb]
  rfl

/-- Under a covering cache, reassembling against the planner's hit map is
the same as reassembling against any result map that agrees with the cache
on the file's clean texts. -/
theorem reassemble_warm_congr (tr1 c1 : Dict) (maxChars : Nat)
    (blocks : List Str)
    (hwarm : ∀ t ∈ fileCleanTexts blocks, dlookup c1 t ≠ none)
    (hD : ∀ t ∈ fileCleanTexts blocks, ∀ v, dlookup c1 t = some v →
      dlookup tr1 t = some v)
    (b : Str) (hb : b ∈ blocks) :
    reassembleBlock (planFile c1 maxChars blocks).tr c1 b =
      reassembleBlock tr1 c1 b := by
  unfold reassembleBlock
  cases hs : splitOnNl b with
  | nil => rfl
  | cons x xs =>
    cases xs with
    | nil => rfl
    | cons y textLines =>
      simp only []
      have hmem : cleanText textLines ∈ fileCleanTexts blocks :=
        cleanText_mem_fileCleanTexts blocks b hb x y textLines hs
      obtain ⟨v, hv⟩ := Option.ne_none_iff_exists'.mp (hwarm _ hmem)
      have htr1 : dlookup tr1 (cleanText textLines) = some v := hD _ hmem v hv
      have htr2 : dlookup (planFile c1 maxChars blocks).tr (cleanText textLines) =
          some v := by
        rw [planFile_tr]
        exact planFold_tr_hit c1 maxChars blocks ⟨[], [], [], []⟩ _ v hv
          (Or.inl hmem)
      rw [htr1, htr2]

theorem process_warm_main (api1 api2 : Str → Str) (cache0 : Dict)
    (maxChars : Nat) (blocks : List Str)
    (hwarm : ∀ t ∈ fileCleanTexts blocks,
      dlookup (processBlocks api1 cache0 maxChars blocks).cache t ≠ none) :
    (processBlocks api2 (processBlocks api1 cache0 maxChars blocks).cache
        maxChars blocks).batches = [] ∧
    (processBlocks api2 (processBlocks api1 cache0 maxChars blocks).cache
        maxChars blocks).calls = 0 ∧
    (processBlocks api2 (processBlocks api1 cache0 maxChars blocks).cache
        maxChars blocks).cache =
      (processBlocks api1 cache0 maxChars blocks).cache ∧
    (processBlocks api2 (processBlocks api1 cache0 maxChars blocks).cache
        maxChars blocks).output =
      (processBlocks api1 cache0 maxChars blocks).output := by
  rw [process_warm_shape api2 (processBlocks api1 cache0 maxChars blocks).cache
    maxChars blocks hwarm]
  refine ⟨rfl, rfl, rfl, ?_⟩
  have hmap :
      blocks.map (reassembleBlock
        (planFile (processBlocks api1 cache0 maxChars blocks).cache maxChars
          blocks).tr
        (processBlocks api1 cache0 maxChars blocks).cache) =
      blocks.map (reassembleBlock
        (processBlocks api1 cache0 maxChars blocks).tr
        (processBlocks api1 cache0 maxChars blocks).cache) := by
    refine List.map_congr_left ?_
    intro b hb
    exact reassemble_warm_congr (processBlocks api1 cache0 maxChars blocks).tr
      _ maxChars blocks hwarm
      (fun t ht v hv => process_tr_cache_coherent api1 cache0 maxChars blocks
        t ht v hv) b hb
  simp only
  rw [hmap]
  rfl

theorem recordSegs_no_valid (ts segs : List Str) (tr c : Dict) (t : Str)
    (h : ∀ i, ts.get? i = some t →
      ¬(i < segs.length ∧ pyStrip (segs.getD i []) ≠ [])) :
    dlookup (recordSegs ts segs (tr, c)).1 t = dlookup tr t ∧
    dlookup (recordSegs ts segs (tr, c)).2 t = dlookup c t := by
  induction ts generalizing segs tr c with
  | nil => simp [recordSegs]
  | cons t' ts' ih =>
    cases segs with
    | nil => simp [recordSegs]
    | cons s ss =>
      have hshift : ∀ i, ts'.get? i = some t →
          ¬(i < ss.length ∧ pyStrip (ss.getD i []) ≠ []) := by
        intro i hget
        have := h (i + 1) (by simpa using hget)
        simpa [Nat.succ_lt_succ_iff] using this
      by_cases hstrip : pyStrip s ≠ []
      · have hne : t' ≠ t := by
          intro he
          exact h 0 (by simp [he]) ⟨by simp, by simpa using hstrip⟩
        simp only [recordSegs]
        rw [if_pos hstrip]
        have := ih ss (dset tr t' (pyStrip s)) (dset c t' (pyStrip s)) hshift
        exact ⟨this.1.trans (dlookup_dset_ne _ _ _ _ hne),
               this.2.trans (dlookup_dset_ne _ _ _ _ hne)⟩
      · simp only [recordSegs]
        rw [if_neg hstrip]
        exact ih ss tr c hshift

theorem recordSegs_valid (ts segs : List Str) (tr c : Dict) (t : Str) (i : Nat)
    (hi : ts.get? i = some t) (hlen : i < segs.length)
    (hstrip : pyStrip (segs.getD i []) ≠ []) :
    ∃ j, ts.get? j = some t ∧ j < segs.length ∧
      pyStrip (segs.getD j []) ≠ [] ∧
      dlookup (recordSegs ts segs (tr, c)).1 t =
        some (pyStrip (segs.getD j [])) ∧
      dlookup (recordSegs ts segs (tr, c)).2 t =
        some (pyStrip (segs.getD j [])) := by
  induction ts generalizing segs tr c i with
  | nil => simp at hi
  | cons t' ts' ih =>
    cases segs with
    | nil => simp at hlen
    | cons s ss =>
      cases i with
      | zero =>
        simp only [List.get?_cons_zero] at hi
        injection hi with hi
        subst hi
        simp only [List.getD_cons_zero] at hstrip
        simp only [recordSegs]
        rw [if_pos hstrip]
        by_cases hex : ∃ k, ts'.get? k = some t' ∧ k < ss.length ∧
            pyStrip (ss.getD k []) ≠ []
        · obtain ⟨k, hk1, hk2, hk3⟩ := hex
          obtain ⟨j', hj1, hj2, hj3, hj4, hj5⟩ :=
            ih ss (dset tr t' (pyStrip s)) (dset c t' (pyStrip s)) k hk1 hk2 hk3
          exact ⟨j' + 1, by simpa using hj1, by simpa [Nat.succ_lt_succ_iff] using hj2,
            by simpa using hj3, by simpa using hj4, by simpa using hj5⟩
        · push_neg at hex
          have hnone := recordSegs_no_valid ts' ss (dset tr t' (pyStrip s))
            (dset c t' (pyStrip s)) t'
            (by
              intro k hk
              intro hcontra
              exact hcontra.2 (hex k hk hcontra.1))
          refine ⟨0, by simp, by simp, by simpa using hstrip, ?_, ?_⟩
          · rw [List.getD_cons_zero, hnone.1, dlookup_dset_self]
          · rw [List.getD_cons_zero, hnone.2, dlookup_dset_self]
      | succ k =>
        simp only [List.get?_cons_succ] at hi
        simp only [List.getD_cons_succ] at hstrip
        have hlen' : k < ss.length := by simpa [Nat.succ_lt_succ_iff] using hlen
        by_cases hstrip' : pyStrip s ≠ []
        · simp only [recordSegs]
          rw [if_pos hstrip']
          obtain ⟨j', hj1, hj2, hj3, hj4, hj5⟩ :=
            ih ss (dset tr t' (pyStrip s)) (dset c t' (pyStrip s)) k hi hlen' hstrip
          exact ⟨j' + 1, by simpa using hj1, by simpa [Nat.succ_lt_succ_iff] using hj2,
            by simpa using hj3, by simpa using hj4, by simpa using hj5⟩
        · simp only [recordSegs]
          rw [if_neg hstrip']
          obtain ⟨j', hj1, hj2, hj3, hj4, hj5⟩ := ih ss tr c k hi hlen' hstrip
          exact ⟨j' + 1, by simpa using hj1, by simpa [Nat.succ_lt_succ_iff] using hj2,
            by simpa using hj3, by simpa using hj4, by simpa using hj5⟩

theorem planStep_short (cache : Dict) (maxChars : Nat) (st : PlanState)
    (b : Str) (hb : (splitOnNl b).length < 2) :
    planStep cache maxChars st b = st := by
  unfold planStep
  cases hs : splitOnNl b with
  | nil => rfl
  | cons x xs =>
    cases xs with
    | nil => rfl
    | cons y ys =>
      rw [hs] at hb
      simp at hb
      omega

theorem reassembleBlock_short (tr c : Dict) (b : Str)
    (hb : (splitOnNl b).length < 2) : reassembleBlock tr c b = b := by
  unfold reassembleBlock
  cases hs : splitOnNl b with
  | nil => rfl
  | cons x xs =>
    cases xs with
    | nil => rfl
    | cons y ys =>
      rw [hs] at hb
      simp at hb
      omega

theorem planFile_drop_short (cache : Dict) (maxChars : Nat)
    (pre post : List Str) (b : Str) (hb : (splitOnNl b).length < 2) :
    planFile cache maxChars (pre ++ b :: post) =
      planFile cache maxChars (pre ++ post) := by
  unfold planFile
  rw [List.foldl_append, List.foldl_cons,
    planStep_short cache maxChars _ b hb, List.foldl_append]

/-! ### Claims -/

/-- C1, corrected: the planning loop does not deduplicate uncached texts.
The flattened source-text lists of the batches equal the sequence of clean
texts of well-formed uncached units in unit order, with one occurrence per
unit — so a clean text occurring in several uncached units appears several
times across the batches. -/
theorem claim_c1_batches_are_occurrences (api : Str → Str) (cache : Dict)
    (maxChars : Nat) (blocks : List Str) :
    (((processBlocks api cache maxChars blocks).batches.map Prod.snd).flatten) =
      uncachedTexts cache blocks :=
  planFile_texts cache maxChars blocks

/-- C1 counterexample: two units with the same uncached clean text "hi"
yield one batch whose source-text list contains "hi" twice, contradicting
"no clean text appears twice inside one batch's source-text list". -/
theorem claim_c1_counterexample :
    (planFile [] 45000 [str "1\nt\nhi", str "2\nt\nhi"]).batches =
      [(str "hi<DEEPL_SPLIT_TOKEN>hi<DEEPL_SPLIT_TOKEN>",
        [str "hi", str "hi"])] ∧
    ¬ ([str "hi", str "hi"].Nodup) := by
  refine ⟨by decide, by decide⟩

/-- C2, confirmed: if after one run the cache covers every clean text of
the file, a second run from that cache builds zero batches, calls the
translate API zero times, leaves the cache unchanged, and writes the
identical output. -/
theorem claim_c2_warm_cache_idempotent (api1 api2 : Str → Str)
    (cache0 : Dict) (maxChars : Nat) (blocks : List Str)
    (hwarm : ∀ t ∈ fileCleanTexts blocks,
      dlookup (processBlocks api1 cache0 maxChars blocks).cache t ≠ none) :
    (processBlocks api2 (processBlocks api1 cache0 maxChars blocks).cache
        maxChars blocks).batches = [] ∧
    (processBlocks api2 (processBlocks api1 cache0 maxChars blocks).cache
        maxChars blocks).calls = 0 ∧
    (processBlocks api2 (processBlocks api1 cache0 maxChars blocks).cache
        maxChars blocks).cache =
      (processBlocks api1 cache0 maxChars blocks).cache ∧
    (processBlocks api2 (processBlocks api1 cache0 maxChars blocks).cache
        maxChars blocks).output =
      (processBlocks api1 cache0 maxChars blocks).output :=
  process_warm_main api1 api2 cache0 maxChars blocks hwarm

theorem claim_c2_witness :
    (processBlocks (fun _ => str "x")
        (processBlocks (fun _ => []) [(str "hi", str "你好")] 45000
          [str "1\nt\nhi"]).cache 45000 [str "1\nt\nhi"]).batches = [] ∧
    (processBlocks (fun _ => str "x")
        (processBlocks (fun _ => []) [(str "hi", str "你好")] 45000
          [str "1\nt\nhi"]).cache 45000 [str "1\nt\nhi"]).calls = 0 ∧
    (processBlocks (fun _ => str "x")
        (processBlocks (fun _ => []) [(str "hi", str "你好")] 45000
          [str "1\nt\nhi"]).cache 45000 [str "1\nt\nhi"]).cache =
      (processBlocks (fun _ => []) [(str "hi", str "你好")] 45000
        [str "1\nt\nhi"]).cache ∧
    (processBlocks (fun _ => str "x")
        (processBlocks (fun _ => []) [(str "hi", str "你好")] 45000
          [str "1\nt\nhi"]).cache 45000 [str "1\nt\nhi"]).output =
      (processBlocks (fun _ => []) [(str "hi", str "你好")] 45000
        [str "1\nt\nhi"]).output :=
  claim_c2_warm_cache_idempotent (fun _ => []) (fun _ => str "x")
    [(str "hi", str "你好")] 45000 [str "1\nt\nhi"] (by decide)

/-- C4, confirmed: every batch's delimiter-joined text fits the budget
unless the batch is a single text whose delimiter-suffixed form alone
exceeds the budget; and every uncached clean text occurrence is placed in
some batch (never dropped). -/
theorem claim_c4_budget (cache : Dict) (maxChars : Nat) (blocks : List Str) :
    (∀ batch ∈ (planFile cache maxChars blocks).batches,
      batch.1.length ≤ maxChars ∨
      ∃ t, batch.2 = [t] ∧ batch.1 = t ++ SPLIT_TOKEN ∧
        maxChars < batch.1.length) ∧
    (∀ t ∈ uncachedTexts cache blocks,
      ∃ batch ∈ (planFile cache maxChars blocks).batches, t ∈ batch.2) := by
  constructor
  · intro batch hb
    exact planFile_budget cache maxChars blocks batch hb
  · intro t ht
    rw [← planFile_texts cache maxChars blocks, List.mem_flatten] at ht
    obtain ⟨l, hl, htl⟩ := ht
    rw [List.mem_map] at hl
    obtain ⟨batch, hbatch, rfl⟩ := hl
    exact ⟨batch, hbatch, htl⟩

theorem claim_c4_witness :
    ∃ batch ∈ (planFile [] 1 [str "1\nt\nhi"]).batches, str "hi" ∈ batch.2 :=
  (claim_c4_budget [] 1 [str "1\nt\nhi"]).2 (str "hi") (by decide)

/-- C3, corrected: the quota gate is three-tier, but the warning tier is the
half-open interval `(T - 0.15, T]`: above `T` the run aborts, strictly
between `T - 0.15` and `T` (inclusive at `T`) it warns, and at or below
`T - 0.15` it proceeds with the positive message. -/
theorem claim_c3_three_tier (f T : ℚ) :
    (T < f → quotaGate f T = QuotaDecision.abort) ∧
    (T - 0.15 < f → f ≤ T → quotaGate f T = QuotaDecision.warn) ∧
    (f ≤ T - 0.15 → quotaGate f T = QuotaDecision.ok) := by
  refine ⟨?_, ?_, ?_⟩
  · intro h
    rw [quotaGate, if_pos h]
  · intro h1 h2
    rw [quotaGate, if_neg (not_lt.mpr h2), if_pos h1]
  · intro h
    have h015 : (0 : ℚ) ≤ 0.15 := by norm_num
    rw [quotaGate, if_neg (not_lt.mpr (by linarith)),
      if_neg (not_lt.mpr h)]

theorem claim_c3_witness : quotaGate 1 (1/2) = QuotaDecision.abort :=
  (claim_c3_three_tier 1 (1/2)).1 (by norm_num)

/-- C3 counterexample: with threshold 0.9 a usage fraction of exactly
`0.9 - 0.15 = 0.75` lies in the claimed closed warning interval
`[T - 0.15, T]`, yet the gate takes the positive branch, not the warning
branch. -/
theorem claim_c3_counterexample :
    quotaGate (3/4 : ℚ) (9/10) = QuotaDecision.ok ∧
    (9/10 : ℚ) - 0.15 ≤ 3/4 ∧ (3/4 : ℚ) ≤ 9/10 ∧
    QuotaDecision.ok ≠ QuotaDecision.warn := by
  refine ⟨?_, by norm_num, by norm_num, by decide⟩
  rw [quotaGate, if_neg (by norm_num), if_neg (by norm_num)]

/-- C5, amended: every unit with at least two lines is reassembled as its
index line, time-range line, original non-blank text lines, and one
translated line; blocks are joined by a blank line with a trailing blank
line.  The translated line is the result-map entry when that entry is
non-empty, else the cache entry when non-empty, else the placeholder (the
fallback triggers on empty-string entries too, not only on absence). -/
theorem claim_c5_reassembly (api : Str → Str) (cache0 : Dict)
    (maxChars : Nat) (blocks : List Str) :
    (processBlocks api cache0 maxChars blocks).output =
      List.intercalate ['\n', '\n']
        (processBlocks api cache0 maxChars blocks).newBlocks ++ ['\n', '\n'] ∧
    ∀ k b x y textLines, blocks.get? k = some b →
      splitOnNl b = x :: y :: textLines →
      (processBlocks api cache0 maxChars blocks).newBlocks.get? k =
        some (List.intercalate ['\n']
          (x :: y :: (textLines.filter (fun l => pyStrip l ≠ []) ++
            [orFalsy
              (dlookup (processBlocks api cache0 maxChars blocks).tr
                (cleanText textLines))
              (orFalsy
                (dlookup (processBlocks api cache0 maxChars blocks).cache
                  (cleanText textLines)) PLACEHOLDER)]))) := by
  refine ⟨rfl, ?_⟩
  intro k b x y textLines hk hs
  have hnb : (processBlocks api cache0 maxChars blocks).newBlocks =
      blocks.map (reassembleBlock
        (processBlocks api cache0 maxChars blocks).tr
        (processBlocks api cache0 maxChars blocks).cache) := rfl
  rw [hnb, List.get?_map, hk]
  simp only [Option.map_some']
  congr 1
  unfold reassembleBlock
  rw [hs]

theorem claim_c5_witness :
    (processBlocks (fun _ => []) [] 45000 [str "1\nt\nhi"]).newBlocks.get? 0 =
      some (List.intercalate ['\n']
        (str "1" :: str "t" :: ([str "hi"].filter (fun l => pyStrip l ≠ []) ++
          [orFalsy
            (dlookup (processBlocks (fun _ => []) [] 45000
              [str "1\nt\nhi"]).tr (cleanText [str "hi"]))
            (orFalsy
              (dlookup (processBlocks (fun _ => []) [] 45000
                [str "1\nt\nhi"]).cache (cleanText [str "hi"]))
              PLACEHOLDER)]))) :=
  (claim_c5_reassembly (fun _ => []) [] 45000 [str "1\nt\nhi"]).2 0
    (str "1\nt\nhi") (str "1") (str "t") [str "hi"] rfl (by decide)

/-- C5 counterexample: with a cache entry mapping "hi" to the empty string,
the per-file result map holds the entry ("hi", "") after the cache hit, yet
the emitted translated line is the placeholder rather than the result-map
value — the lookup chain falls through on empty strings, not only on
absence. -/
theorem claim_c5_counterexample :
    dlookup (processBlocks (fun _ => []) [(str "hi", [])] 45000
      [str "1\nt\nhi"]).tr (str "hi") = some [] ∧
    dlookup (processBlocks (fun _ => []) [(str "hi", [])] 45000
      [str "1\nt\nhi"]).cache (str "hi") = some [] ∧
    (processBlocks (fun _ => []) [(str "hi", [])] 45000
      [str "1\nt\nhi"]).newBlocks =
      [str "1\nt\nhi\n【翻译失败或原文为空】"] := by
  refine ⟨by decide, by decide, by decide⟩

/-- C6, confirmed: for one translated batch, when the response is empty
nothing is recorded at all; a text with no corresponding non-empty-after-
stripping segment keeps its previous result-map and cache lookups; and a
text with such a segment ends up in both maps bound to the stripped
segment of one of its valid positions. -/
theorem claim_c6_positional_split (api : Str → Str) (st : MergeState)
    (batch : Str × List Str) (t : Str) :
    (api batch.1 = [] →
      (mergeBatch api st batch).tr = st.tr ∧
      (mergeBatch api st batch).cache = st.cache) ∧
    ((∀ i, batch.2.get? i = some t →
        ¬(i < (splitOnStr SPLIT_TOKEN (api batch.1)).length ∧
          pyStrip ((splitOnStr SPLIT_TOKEN (api batch.1)).getD i []) ≠ [])) →
      dlookup (mergeBatch api st batch).tr t = dlookup st.tr t ∧
      dlookup (mergeBatch api st batch).cache t = dlookup st.cache t) ∧
    (∀ i, batch.2.get? i = some t →
      i < (splitOnStr SPLIT_TOKEN (api batch.1)).length →
      pyStrip ((splitOnStr SPLIT_TOKEN (api batch.1)).getD i []) ≠ [] →
      ∃ j, batch.2.get? j = some t ∧
        j < (splitOnStr SPLIT_TOKEN (api batch.1)).length ∧
        pyStrip ((splitOnStr SPLIT_TOKEN (api batch.1)).getD j []) ≠ [] ∧
        dlookup (mergeBatch api st batch).tr t =
          some (pyStrip ((splitOnStr SPLIT_TOKEN (api batch.1)).getD j [])) ∧
        dlookup (mergeBatch api st batch).cache t =
          some (pyStrip ((splitOnStr SPLIT_TOKEN (api batch.1)).getD j []))) := by
  refine ⟨?_, ?_, ?_⟩
  · intro hemp
    simp only [mergeBatch]
    rw [if_neg (fun hh => hh hemp)]
    exact ⟨rfl, rfl⟩
  · intro h
    by_cases hemp : api batch.1 = []
    · simp only [mergeBatch]
      rw [if_neg (fun hh => hh hemp)]
      exact ⟨rfl, rfl⟩
    · simp only [mergeBatch]
      rw [if_pos hemp]
      exact recordSegs_no_valid batch.2 _ st.tr st.cache t h
  · intro i hi hlen hstrip
    by_cases hemp : api batch.1 = []
    · exfalso
      rw [hemp] at hlen hstrip
      have hseg : splitOnStr SPLIT_TOKEN [] = [[]] := rfl
      rw [hseg] at hlen hstrip
      simp only [List.length_cons, List.length_nil] at hlen
      have hi0 : i = 0 := by omega
      subst hi0
      simp [pyStrip] at hstrip
    · simp only [mergeBatch]
      rw [if_pos hemp]
      exact recordSegs_valid batch.2 _ st.tr st.cache t i hi hlen hstrip

theorem claim_c6_witness :
    ∃ j, [str "a", str "b"].get? j = some (str "a") ∧
      j < (splitOnStr SPLIT_TOKEN (str "X<DEEPL_SPLIT_TOKEN> ")).length ∧
      pyStrip ((splitOnStr SPLIT_TOKEN
        (str "X<DEEPL_SPLIT_TOKEN> ")).getD j []) ≠ [] ∧
      dlookup (mergeBatch (fun _ => str "X<DEEPL_SPLIT_TOKEN> ")
        ⟨[], [], 0⟩ (str "q", [str "a", str "b"])).tr (str "a") =
        some (pyStrip ((splitOnStr SPLIT_TOKEN
          (str "X<DEEPL_SPLIT_TOKEN> ")).getD j [])) ∧
      dlookup (mergeBatch (fun _ => str "X<DEEPL_SPLIT_TOKEN> ")
        ⟨[], [], 0⟩ (str "q", [str "a", str "b"])).cache (str "a") =
        some (pyStrip ((splitOnStr SPLIT_TOKEN
          (str "X<DEEPL_SPLIT_TOKEN> ")).getD j [])) :=
  (claim_c6_positional_split (fun _ => str "X<DEEPL_SPLIT_TOKEN> ")
    ⟨[], [], 0⟩ (str "q", [str "a", str "b"]) (str "a")).2.2 0
    (by decide) (by decide) (by decide)

/-- C7, amended: constructing the cache cannot fail when the file is absent
or its bytes decode as UTF-8 — an absent file and a decodable file whose
text is not valid JSON both give the empty mapping — but a file whose bytes
are not valid UTF-8 raises an uncaught `UnicodeDecodeError` (only
`json.JSONDecodeError` is caught). -/
theorem claim_c7_load_cache (file : Option (List Nat)) :
    (file = none → loadCacheResult file = some (Json.obj [])) ∧
    (∀ bs s, file = some bs → utf8Decode bs = some s →
      loadCacheResult file ≠ none ∧
      (jsonLoad s = none → loadCacheResult file = some (Json.obj []))) := by
  constructor
  · intro h
    subst h
    rfl
  · intro bs s hfile hdec
    subst hfile
    constructor
    · simp only [loadCacheResult]
      rw [hdec]
      show (match jsonLoad s with
            | none => some (Json.obj [])
            | some v => some v) ≠ none
      cases h : jsonLoad s <;> simp
    · intro hparse
      simp only [loadCacheResult]
      rw [hdec]
      show (match jsonLoad s with
            | none => some (Json.obj [])
            | some v => some v) = some (Json.obj [])
      rw [hparse]

theorem claim_c7_witness :
    loadCacheResult (some [0x6E, 0x6F]) = some (Json.obj []) :=
  ((claim_c7_load_cache (some [0x6E, 0x6F])).2 [0x6E, 0x6F] (str "no")
    rfl (by rfl)).2 (by rfl)

/-- C7 counterexample: a one-byte cache file `0xFF` is not valid UTF-8, so
constructing the `TranslationCache` raises instead of initializing empty —
the claim's "never fails" does not hold for every file state. -/
theorem claim_c7_counterexample : loadCacheResult (some [0xFF]) = none := rfl

/-- C8, confirmed: `get_usage` computes the fraction as `used / limit`,
and a limit of 0 yields fraction 0 rather than a division error. -/
theorem claim_c8_usage_fraction (used limit : Int) :
    (limit ≠ 0 → getUsageFraction (some used) (some limit) =
      (used : ℚ) / (limit : ℚ)) ∧
    getUsageFraction (some used) (some 0) = 0 := by
  constructor
  · intro h
    simp [getUsageFraction, h]
  · simp [getUsageFraction]

theorem claim_c8_witness :
    getUsageFraction (some 7) (some 2) = (7 : ℚ) / (2 : ℚ) :=
  (claim_c8_usage_fraction 7 2).1 (by norm_num)

/-- C10, confirmed: a missing `character_count` is treated as 0 and a
missing `character_limit` as 500000, and the quota gate decision is
computed from those defaulted values. -/
theorem claim_c10_usage_defaults (u l : Option Int) (T : ℚ) :
    getUsageFraction none l = getUsageFraction (some 0) l ∧
    getUsageFraction u none = getUsageFraction u (some 500000) ∧
    quotaGate (getUsageFraction none none) T =
      quotaGate (getUsageFraction (some 0) (some 500000)) T :=
  ⟨rfl, rfl, rfl⟩

/-- C9, amended: a unit with fewer than two lines is skipped by the
translation machinery — batches, result map, cache, and call count are the
same as if the unit were absent — but the reassembly loop appends the raw
block verbatim, so the unit does contribute its original text to the
output file. -/
theorem claim_c9_short_unit (api : Str → Str) (cache0 : Dict)
    (maxChars : Nat) (pre post : List Str) (b : Str)
    (hb : (splitOnNl b).length < 2) :
    (processBlocks api cache0 maxChars (pre ++ b :: post)).batches =
      (processBlocks api cache0 maxChars (pre ++ post)).batches ∧
    (processBlocks api cache0 maxChars (pre ++ b :: post)).tr =
      (processBlocks api cache0 maxChars (pre ++ post)).tr ∧
    (processBlocks api cache0 maxChars (pre ++ b :: post)).cache =
      (processBlocks api cache0 maxChars (pre ++ post)).cache ∧
    (processBlocks api cache0 maxChars (pre ++ b :: post)).calls =
      (processBlocks api cache0 maxChars (pre ++ post)).calls ∧
    (processBlocks api cache0 maxChars (pre ++ b :: post)).newBlocks =
      (processBlocks api cache0 maxChars (pre ++ post)).newBlocks.take
          pre.length ++
        b :: (processBlocks api cache0 maxChars (pre ++ post)).newBlocks.drop
          pre.length := by
  have hplan := planFile_drop_short cache0 maxChars pre post b hb
  refine ⟨?_, ?_, ?_, ?_, ?_⟩
  · show (planFile cache0 maxChars (pre ++ b :: post)).batches =
      (planFile cache0 maxChars (pre ++ post)).batches
    rw [hplan]
  · show ((planFile cache0 maxChars (pre ++ b :: post)).batches.foldl
        (mergeBatch api)
        ⟨(planFile cache0 maxChars (pre ++ b :: post)).tr, cache0, 0⟩).tr =
      ((planFile cache0 maxChars (pre ++ post)).batches.foldl
        (mergeBatch api)
        ⟨(planFile cache0 maxChars (pre ++ post)).tr, cache0, 0⟩).tr
    rw [hplan]
  · show ((planFile cache0 maxChars (pre ++ b :: post)).batches.foldl
        (mergeBatch api)
        ⟨(planFile cache0 maxChars (pre ++ b :: post)).tr, cache0, 0⟩).cache =
      ((planFile cache0 maxChars (pre ++ post)).batches.foldl
        (mergeBatch api)
        ⟨(planFile cache0 maxChars (pre ++ post)).tr, cache0, 0⟩).cache
    rw [hplan]
  · show ((planFile cache0 maxChars (pre ++ b :: post)).batches.foldl
        (mergeBatch api)
        ⟨(planFile cache0 maxChars (pre ++ b :: post)).tr, cache0, 0⟩).calls =
      ((planFile cache0 maxChars (pre ++ post)).batches.foldl
        (mergeBatch api)
        ⟨(planFile cache0 maxChars (pre ++ post)).tr, cache0, 0⟩).calls
    rw [hplan]
  · show (pre ++ b :: post).map (reassembleBlock
        ((planFile cache0 maxChars (pre ++ b :: post)).batches.foldl
          (mergeBatch api)
          ⟨(planFile cache0 maxChars (pre ++ b :: post)).tr, cache0, 0⟩).tr
        ((planFile cache0 maxChars (pre ++ b :: post)).batches.foldl
          (mergeBatch api)
          ⟨(planFile cache0 maxChars (pre ++ b :: post)).tr, cache0, 0⟩).cache) =
      ((pre ++ post).map (reassembleBlock
        ((planFile cache0 maxChars (pre ++ post)).batches.foldl
          (mergeBatch api)
          ⟨(planFile cache0 maxChars (pre ++ post)).tr, cache0, 0⟩).tr
        ((planFile cache0 maxChars (pre ++ post)).batches.foldl
          (mergeBatch api)
          ⟨(planFile cache0 maxChars (pre ++ post)).tr, cache0, 0⟩).cache)).take
          pre.length ++
        b :: ((pre ++ post).map (reassembleBlock
        ((planFile cache0 maxChars (pre ++ post)).batches.foldl
          (mergeBatch api)
          ⟨(planFile cache0 maxChars (pre ++ post)).tr, cache0, 0⟩).tr
        ((planFile cache0 maxChars (pre ++ post)).batches.foldl
          (mergeBatch api)
          ⟨(planFile cache0 maxChars (pre ++ post)).tr, cache0, 0⟩).cache)).drop
          pre.length
    rw [hplan]
    rw [List.map_append, List.map_cons,
      reassembleBlock_short _ _ b hb, List.map_append]
    rw [show pre.length = ((pre.map (reassembleBlock
        ((planFile cache0 maxChars (pre ++ post)).batches.foldl
          (mergeBatch api)
          ⟨(planFile cache0 maxChars (pre ++ post)).tr, cache0, 0⟩).tr
        ((planFile cache0 maxChars (pre ++ post)).batches.foldl
          (mergeBatch api)
          ⟨(planFile cache0 maxChars (pre ++ post)).tr, cache0, 0⟩).cache))).length
      from (List.length_map _ _).symm]
    rw [List.take_left, List.drop_left]

/-- C9 counterexample: a file consisting of one block with a single line
(fewer than two structural lines) produces the output `"x\n\n"`, while a
file with no units produces `"\n\n"` — the skipped unit's raw text does
appear in the reassembled output, contradicting "contributes nothing to
the reassembled output file". -/
theorem claim_c9_counterexample :
    (processBlocks (fun _ => []) [] 45000 [str "x"]).output = str "x\n\n" ∧
    (processBlocks (fun _ => []) [] 45000 []).output = str "\n\n" := by
  refine ⟨by decide, by decide⟩

theorem claim_c9_witness :
    (processBlocks (fun _ => []) [] 45000 ([] ++ str "x" :: [])).batches =
      (processBlocks (fun _ => []) [] 45000 ([] ++ [])).batches ∧
    (processBlocks (fun _ => []) [] 45000 ([] ++ str "x" :: [])).tr =
      (processBlocks (fun _ => []) [] 45000 ([] ++ [])).tr ∧
    (processBlocks (fun _ => []) [] 45000 ([] ++ str "x" :: [])).cache =
      (processBlocks (fun _ => []) [] 45000 ([] ++ [])).cache ∧
    (processBlocks (fun _ => []) [] 45000 ([] ++ str "x" :: [])).calls =
      (processBlocks (fun _ => []) [] 45000 ([] ++ [])).calls ∧
    (processBlocks (fun _ => []) [] 45000 ([] ++ str "x" :: [])).newBlocks =
      (processBlocks (fun _ => []) [] 45000 ([] ++ [])).newBlocks.take
          (List.length ([] : List Str)) ++
        str "x" :: (processBlocks (fun _ => []) [] 45000
          ([] ++ [])).newBlocks.drop (List.length ([] : List Str)) :=
  claim_c9_short_unit (fun _ => []) [] 45000 [] [] (str "x") (by decide)

/-- Sanity check matching the specification's worked example: bracketed
spans are stripped and a cache hit reuses the stored translation in the
rebuilt block. -/
theorem sanity_spec_example :
    cleanText [str "Hello [music] world"] = str "Hello  world" ∧
    (processBlocks (fun _ => [])
        [(str "Hello  world", str "你好 世界")] 45000
        [str "1\n00:00:01,000 --> 00:00:02,000\nHello [music] world"]).newBlocks =
      [str "1\n00:00:01,000 --> 00:00:02,000\nHello [music] world\n你好 世界"] := by
  refine ⟨by decide, by decide⟩

/-- Sanity check: the Python split semantics used throughout the model. -/
theorem sanity_split :
    splitOnNl (str "1\nt\nhi") = [str "1", str "t", str "hi"] ∧
    splitOnStr (str "<T>") (str "a<T>b<T>") = [str "a", str "b", str ""] ∧
    pyStrip (str "  hi ") = str "hi" := by
  refine ⟨by decide, by decide, by decide⟩

/-- Sanity check: the JSON model parses an object file, rejects a
truncated one, and the cache loader treats valid-UTF-8 garbage as empty. -/
theorem sanity_json :
    jsonLoad (str "\x7b\"a\": \"b\"\x7d") =
      some (Json.obj [(str "a", Json.str (str "b"))]) ∧
    jsonLoad (str "\x7b\"a\": \"b\"") = none ∧
    jsonLoad (str " [1, 2.5e3, null, true] ") =
      some (Json.arr [Json.num (str "1"), Json.num (str "2.5e3"), Json.null,
        Json.bool true]) ∧
    loadCacheResult (some [0x6E, 0x6F]) = some (Json.obj []) := by
  refine ⟨rfl, rfl, rfl, rfl⟩
